import Mathlib

/-!
Verification of the `violet` text-editor core (Rust) against its
natural-language specification.

The Rust source is shallowly embedded: `String`s become `List Char`
(with byte positions computed through `Char.utf8Size`, matching Rust's
UTF-8 byte indexing), `Vec<usize>` becomes `List Nat`, fallible or
panicking operations return `Option` (`none` models a Rust panic where
noted), and `usize` arithmetic that can wrap (release-profile
`saturating_*` / wrapping subtraction) is modelled with explicit
saturation / mod-2^64 arithmetic.
-/

/-- Width of `usize` values: the editor runs on a 64-bit target. -/
def USIZE : Nat := 2 ^ 64

/-- `usize::saturating_mul`. -/
def satMul (a b : Nat) : Nat := min (a * b) (USIZE - 1)

/-- `usize::saturating_add`. -/
def satAdd (a b : Nat) : Nat := min (a + b) (USIZE - 1)

/-- Wrapping decrement of a `usize` (release-profile `x -= 1`). -/
def wdec (n : Nat) : Nat := (n + (USIZE - 1)) % USIZE

/-- Total UTF-8 byte length of a character list (Rust `str::len`). -/
def utf8Len : List Char → Nat
  | [] => 0
  | c :: r => c.utf8Size + utf8Len r

/-- Drop the first `n` bytes of a string (suffix from byte offset `n`);
`none` when `n` is not a character boundary or exceeds the byte length
(a Rust slicing panic). -/
def byteDrop : List Char → Nat → Option (List Char)
  | s, 0 => some s
  | [], _ + 1 => none
  | c :: rest, n + 1 =>
    if c.utf8Size ≤ n + 1 then byteDrop rest (n + 1 - c.utf8Size) else none

/-- Take the first `n` bytes of a string; `none` when `n` is not a
character boundary or exceeds the byte length (a Rust slicing panic). -/
def byteTake : List Char → Nat → Option (List Char)
  | _, 0 => some []
  | [], _ + 1 => none
  | c :: rest, n + 1 =>
    if c.utf8Size ≤ n + 1 then (byteTake rest (n + 1 - c.utf8Size)).map (c :: ·) else none

/-- Rust `&text[a..b]`: the byte range `[a, b)` of the string;
`none` models the slicing panic (bad boundary, `a > b`, or out of range). -/
def byteSlice (s : List Char) (a b : Nat) : Option (List Char) :=
  if a ≤ b then
    match byteDrop s a with
    | none => none
    | some r => byteTake r (b - a)
  else none

/-- Rust `String::insert(p, ch)`: insert `ch` at byte position `p`;
`none` models the panic when `p` is not a boundary or `p > len`. -/
def insertAtByte : List Char → Nat → Char → Option (List Char)
  | s, 0, ch => some (ch :: s)
  | [], _ + 1, _ => none
  | c :: rest, n + 1, ch =>
    if c.utf8Size ≤ n + 1 then (insertAtByte rest (n + 1 - c.utf8Size) ch).map (c :: ·) else none

/-- Rust `String::remove(p)`: remove and return the character starting at
byte position `p`; `none` models the panic when `p ≥ len` or `p` is not
a character boundary. -/
def removeAtByte : List Char → Nat → Option (Char × List Char)
  | [], _ => none
  | c :: rest, 0 => some (c, rest)
  | c :: rest, n + 1 =>
    if c.utf8Size ≤ n + 1 then
      (removeAtByte rest (n + 1 - c.utf8Size)).map (fun p => (p.1, c :: p.2))
    else none

/-- Rust `text.replace_range(a..b, "")`: delete the byte range `[a, b)`;
`none` models the panic on a bad range. -/
def replaceRangeEmpty (s : List Char) (a b : Nat) : Option (List Char) :=
  if a ≤ b then
    match byteTake s a, byteDrop s b with
    | some pre, some suf => some (pre ++ suf)
    | _, _ => none
  else none

/-- `line.char_indices().nth(col).map(|(i, _)| i).unwrap_or(line.len())`:
the byte offset of the `col`-th character, or the byte length of the
line when `col` is past the end. -/
def charIdxOrEnd : List Char → Nat → Nat
  | _, 0 => 0
  | [], _ + 1 => 0
  | c :: rest, n + 1 => c.utf8Size + charIdxOrEnd rest n

/-- Byte offsets one past each `'\n'`, scanning from byte position `p`:
models `text.match_indices('\n').map(|(i, _)| i + 1)`. -/
def newlinePositions : List Char → Nat → List Nat
  | [], _ => []
  | c :: rest, p =>
    if c = '\n' then (p + 1) :: newlinePositions rest (p + c.utf8Size)
    else newlinePositions rest (p + c.utf8Size)

/-- The line-offset index freshly computed from a text, as built by
`Buffer::new` / `Buffer::update_text`: `vec![0]` extended with the
positions one past each newline. -/
def lineOffsetsOf (s : List Char) : List Nat := 0 :: newlinePositions s 0

/-- `p` is a UTF-8 character boundary of `s` (including `0` and the total
byte length). -/
def isBoundary (s : List Char) (p : Nat) : Prop :=
  ∃ n, n ≤ s.length ∧ utf8Len (s.take n) = p

instance (s : List Char) (p : Nat) : Decidable (isBoundary s p) :=
  decidable_of_iff (p ∈ (List.range (s.length + 1)).map fun n => utf8Len (s.take n)) (by
    simp [isBoundary, Nat.lt_succ_iff, eq_comm])

/-- `src/buffer/buffer.rs`: the text buffer. -/
structure Buffer where
  buffer_name : List Char
  text : List Char
  line_offsets : List Nat
deriving DecidableEq

/-- `Buffer::new`. -/
def Buffer.new (name text : List Char) : Buffer :=
  ⟨name, text, lineOffsetsOf text⟩

/-- `Buffer::line_count`. -/
def Buffer.line_count (b : Buffer) : Nat := b.line_offsets.length

/-- `Buffer::get_line`. A Rust slicing panic inside the method (possible
only for an ill-formed offset index) is collapsed into `none` as well;
for well-formed buffers the slice always succeeds (see
`get_line_decomp`). -/
def Buffer.get_line (b : Buffer) (line : Nat) : Option (List Char) :=
  if b.line_offsets.length ≤ line then none
  else
    let start := b.line_offsets.getD line 0
    let stop :=
      if line + 1 < b.line_offsets.length then b.line_offsets.getD (line + 1) 0 - 1
      else utf8Len b.text
    byteSlice b.text start stop

/-- `Buffer::char_to_byte_position`. -/
def Buffer.char_to_byte_position (b : Buffer) (line col : Nat) : Option Nat :=
  if b.line_offsets.length ≤ line then none
  else
    match b.get_line line with
    | none => none
    | some ltext => some (b.line_offsets.getD line 0 + charIdxOrEnd ltext col)

/-- The buffer's documented well-formedness: the stored offset index is
the one a fresh scan of the text would produce. -/
def BufferWF (b : Buffer) : Prop := b.line_offsets = lineOffsetsOf b.text

instance (b : Buffer) : Decidable (BufferWF b) := by
  unfold BufferWF; infer_instance

/-- Modelled from the spec: `src/editor/mode.rs` is not part of the
provided sources; §3 of the spec fixes `Mode` as "exactly one of
{Normal, Insert, Command}". -/
inductive Mode where
  | normal
  | insert
  | command
deriving DecidableEq

/-- The crossterm `KeyCode` values the editor dispatches on. -/
inductive KeyCode where
  | char (c : Char)
  | esc
  | enter
  | backspace
  | delete
  | left
  | right
  | up
  | down
  | home
  | endKey
  | other
deriving DecidableEq

/-- `src/cursor.rs`. -/
structure Cursor where
  x : Nat
  y : Nat
deriving DecidableEq

/-- `src/command_prompt.rs`. -/
structure CommandPrompt where
  command : List Char
  cursor_pos : Nat
  active : Bool
deriving DecidableEq

/-- `CommandPrompt::new`. -/
def CommandPrompt.new : CommandPrompt := ⟨[], 0, false⟩

/-- `CommandPrompt::activate`. -/
def CommandPrompt.activate (_cp : CommandPrompt) : CommandPrompt := ⟨[], 0, true⟩

/-- Insert an element before position `n` (Rust `String::insert` on the
prompt; `cursor_pos ≤ len` always holds there). -/
def insertAt (l : List Char) (n : Nat) (c : Char) : List Char :=
  l.take n ++ c :: l.drop n

/-- `CommandPrompt::handle_key`: returns the confirmed command (on Enter)
together with the updated prompt state. -/
def CommandPrompt.handle_key (cp : CommandPrompt) (k : KeyCode) :
    Option (List Char) × CommandPrompt :=
  match k with
  | .esc => (none, { cp with active := false })
  | .enter => (some cp.command, ⟨[], 0, false⟩)
  | .backspace =>
    if 0 < cp.cursor_pos then
      (none, { cp with
               cursor_pos := cp.cursor_pos - 1
               command := cp.command.eraseIdx (cp.cursor_pos - 1) })
    else (none, cp)
  | .delete =>
    if cp.cursor_pos < cp.command.length then
      (none, { cp with command := cp.command.eraseIdx cp.cursor_pos })
    else (none, cp)
  | .left => if 0 < cp.cursor_pos then (none, { cp with cursor_pos := cp.cursor_pos - 1 }) else (none, cp)
  | .right => if cp.cursor_pos < cp.command.length then (none, { cp with cursor_pos := cp.cursor_pos + 1 }) else (none, cp)
  | .home => (none, { cp with cursor_pos := 0 })
  | .endKey => (none, { cp with cursor_pos := cp.command.length })
  | .char c => (none, { cp with
                        command := insertAt cp.command cp.cursor_pos c
                        cursor_pos := cp.cursor_pos + 1 })
  | _ => (none, cp)

/-- The external collaborators of the editor (file system and path
parsing), abstracted: `read` is `fs::read_to_string` (`none` = failure),
`fileName` is `Path::file_name` with its `unwrap_or_else` fallback, and
`writeOk` tells whether `fs::write` succeeds. -/
structure FS where
  read : List Char → Option (List Char)
  fileName : List Char → List Char
  writeOk : List Char → Bool

/-- `src/editor/editor.rs`: the editor state. The two render buffers are
kept outside this state; `width`/`height` are their dimensions
(`render_buffer.width/height`), which the motion and viewport logic
reads. -/
structure Editor where
  buffer : Buffer
  cursor : Cursor
  mode : Mode
  command_prompt : CommandPrompt
  viewport_x : Nat
  viewport_y : Nat
  last_key : Option KeyCode
  motion_count : Option Nat
  width : Nat
  height : Nat
deriving DecidableEq

/-- `Editor::open_file` (the file read and path parsing go through `fs`). -/
def open_file (fs : FS) (path : List Char) : Option Buffer :=
  (fs.read path).map fun contents => Buffer.new (fs.fileName path) contents

/-- Replace every offset from index `i` on by its image under `f`:
models the Rust loops `for i in start..line_count { line_offsets[i] = f(line_offsets[i]) }`. -/
def mapFrom (l : List Nat) (i : Nat) (f : Nat → Nat) : List Nat :=
  l.take i ++ (l.drop i).map f

/-- `Editor::insert_newline`. `text.insert` is modelled by
`insertAtByte` (`none` = panic). Note the source pushes the new offset
and sorts, without shifting the offsets that follow the insertion
point. -/
def insert_newline (e : Editor) : Option Editor :=
  let byte_pos := (e.buffer.char_to_byte_position e.cursor.y e.cursor.x).getD (utf8Len e.buffer.text)
  match insertAtByte e.buffer.text byte_pos '\n' with
  | none => none
  | some t =>
    let offs := List.insertionSort (· ≤ ·) (e.buffer.line_offsets ++ [byte_pos + 1])
    some { e with
           buffer := { e.buffer with text := t, line_offsets := offs }
           cursor := ⟨0, e.cursor.y + 1⟩ }

/-- `Editor::insert_char`. -/
def insert_char (e : Editor) (ch : Char) : Option Editor :=
  if ch = '\n' then insert_newline e
  else
    match e.buffer.char_to_byte_position e.cursor.y e.cursor.x with
    | none => some e
    | some byte_pos =>
      match insertAtByte e.buffer.text byte_pos ch with
      | none => none
      | some t =>
        let b := { e.buffer with
                   text := t
                   line_offsets := mapFrom e.buffer.line_offsets (e.cursor.y + 1) (· + ch.utf8Size) }
        some { e with buffer := b, cursor := { e.cursor with x := e.cursor.x + 1 } }

/-- `Editor::delete_char_before_cursor`. The `text.remove(byte_pos - 1)`
at column 0 is modelled with the release-profile wrap: `byte_pos = 0`
would make the index wrap far out of range, a panic (`none`). -/
def delete_char_before_cursor (e : Editor) : Option Editor :=
  if 0 < e.cursor.x then
    match e.buffer.char_to_byte_position e.cursor.y (e.cursor.x - 1) with
    | none => some e
    | some byte_pos =>
      match removeAtByte e.buffer.text byte_pos with
      | none => none
      | some (ch, t) =>
        let b := { e.buffer with
                   text := t
                   line_offsets := mapFrom e.buffer.line_offsets (e.cursor.y + 1) (· - ch.utf8Size) }
        some { e with buffer := b, cursor := { e.cursor with x := e.cursor.x - 1 } }
  else if 0 < e.cursor.y then
    let prev_line_len := ((e.buffer.get_line (e.cursor.y - 1)).map utf8Len).getD 0
    match e.buffer.char_to_byte_position e.cursor.y 0 with
    | none => some e
    | some byte_pos =>
      if byte_pos = 0 then none
      else
        match removeAtByte e.buffer.text (byte_pos - 1) with
        | none => none
        | some (_, t) =>
          let b := { e.buffer with
                     text := t
                     line_offsets := mapFrom (e.buffer.line_offsets.eraseIdx e.cursor.y) e.cursor.y (· - 1) }
          some { e with buffer := b, cursor := ⟨prev_line_len, e.cursor.y - 1⟩ }
  else some e

/-- `Editor::delete_char_at_cursor`. `text.remove` panics (`none`) when
the byte position equals the text length. -/
def delete_char_at_cursor (e : Editor) : Option Editor :=
  match e.buffer.char_to_byte_position e.cursor.y e.cursor.x with
  | none => some e
  | some byte_pos =>
    match removeAtByte e.buffer.text byte_pos with
    | none => none
    | some (ch, t) =>
      if ch = '\n' then
        match e.buffer.line_offsets.findIdx? (fun p => p = byte_pos + 1) with
        | none => some { e with buffer := { e.buffer with text := t } }
        | some pos =>
          let b := { e.buffer with
                     text := t
                     line_offsets := mapFrom (e.buffer.line_offsets.eraseIdx pos) pos (· - 1) }
          some { e with buffer := b }
      else
        let b := { e.buffer with
                   text := t
                   line_offsets := mapFrom e.buffer.line_offsets (e.cursor.y + 1) (· - ch.utf8Size) }
        some { e with buffer := b }

/-- `Editor::delete_current_line`. Indexing `line_offsets[cursor.y]`
out of range and a bad `replace_range` are panics (`none`). -/
def delete_current_line (e : Editor) : Option Editor :=
  if e.buffer.line_count = 0 then some e
  else
    match e.buffer.line_offsets[e.cursor.y]? with
    | none => none
    | some line_start =>
      let line_end :=
        if e.cursor.y + 1 < e.buffer.line_offsets.length then
          e.buffer.line_offsets.getD (e.cursor.y + 1) 0 - 1
        else utf8Len e.buffer.text
      match replaceRangeEmpty e.buffer.text line_start line_end with
      | none => none
      | some t =>
        let offs := e.buffer.line_offsets.eraseIdx e.cursor.y
        let cy := if offs.length ≤ e.cursor.y then offs.length - 1 else e.cursor.y
        some { e with
               buffer := { e.buffer with text := t, line_offsets := offs }
               cursor := ⟨0, cy⟩ }

/-- `Editor::clamp_cursor_x`. -/
def clamp_cursor_x (e : Editor) : Editor :=
  match e.buffer.get_line e.cursor.y with
  | none => e
  | some line =>
    if line.length < e.cursor.x then { e with cursor := { e.cursor with x := line.length } } else e

/-- `Editor::move_cursor_left`. -/
def move_cursor_left (e : Editor) : Editor :=
  if 0 < e.cursor.x then { e with cursor := { e.cursor with x := e.cursor.x - 1 } }
  else if 0 < e.cursor.y then
    { e with cursor :=
        ⟨((e.buffer.get_line (e.cursor.y - 1)).map List.length).getD 0, e.cursor.y - 1⟩ }
  else e

/-- `Editor::move_cursor_right`. -/
def move_cursor_right (e : Editor) : Editor :=
  match e.buffer.get_line e.cursor.y with
  | none => e
  | some line =>
    if e.cursor.x < line.length then { e with cursor := { e.cursor with x := e.cursor.x + 1 } }
    else if e.cursor.y + 1 < e.buffer.line_count then { e with cursor := ⟨0, e.cursor.y + 1⟩ }
    else e

/-- `Editor::move_cursor_up`. -/
def move_cursor_up (e : Editor) : Editor :=
  if 0 < e.cursor.y then
    let e1 := clamp_cursor_x { e with cursor := { e.cursor with y := e.cursor.y - 1 } }
    if e1.cursor.y < e1.viewport_y then { e1 with viewport_y := e1.cursor.y } else e1
  else e

/-- `Editor::move_cursor_down`. -/
def move_cursor_down (e : Editor) : Editor :=
  if e.cursor.y + 1 < e.buffer.line_count then
    let e1 := clamp_cursor_x { e with cursor := { e.cursor with y := e.cursor.y + 1 } }
    let visible_lines := e1.height - 1
    if e1.viewport_y + visible_lines ≤ e1.cursor.y then
      { e1 with viewport_y := e1.cursor.y - visible_lines + 1 }
    else e1
  else e

/-- First `while` loop of the word motions: consume up to and including
the first whitespace character, applying `step` to the counter for each
non-whitespace character consumed; returns the unconsumed remainder and
the final counter. -/
def skipWordLoop (step : Nat → Nat) : List Char → Nat → List Char × Nat
  | [], n => ([], n)
  | c :: rest, n =>
    if c.isWhitespace then (rest, n) else skipWordLoop step rest (step n)

/-- Second `while` loop of the word motions: consume up to and including
the first non-whitespace character, applying `step` for each whitespace
character consumed. -/
def skipWsLoop (step : Nat → Nat) : List Char → Nat → List Char × Nat
  | [], n => ([], n)
  | c :: rest, n =>
    if c.isWhitespace then skipWsLoop step rest (step n) else (rest, n)

/-- `Editor::jump_cursor_word`. Note the source compares the character
column `cursor.x` against the line's byte length and skips `cursor.x`
characters of the iterator. -/
def jump_cursor_word (e : Editor) : Editor :=
  match e.buffer.get_line e.cursor.y with
  | none => e
  | some line =>
    if e.cursor.x < utf8Len line then
      let r1 := skipWordLoop (· + 1) (line.drop e.cursor.x) e.cursor.x
      let r2 := skipWsLoop (· + 1) r1.1 r1.2
      { e with cursor := { e.cursor with x := min r2.2 (utf8Len line) } }
    else if e.cursor.y + 1 < e.buffer.line_count then
      jump_cursor_word { e with cursor := ⟨0, e.cursor.y + 1⟩ }
    else e
termination_by e.buffer.line_count - e.cursor.y
decreasing_by simp [Buffer.line_count] at *; omega

/-- `Editor::jump_cursor_word_reverse`. The `new_cursor_x -= 1`
decrements are the release-profile wrapping subtraction (`wdec`), as is
the `cursor.y - 1 < line_count` guard. On a line-boundary wrap the
source re-applies the forward skip (`jump_cursor_word`), the defect
flagged in the spec. -/
def jump_cursor_word_reverse (e : Editor) : Editor :=
  match e.buffer.get_line e.cursor.y with
  | none => e
  | some line =>
    if e.cursor.x < utf8Len line then
      let r1 := skipWordLoop wdec (line.drop e.cursor.x) e.cursor.x
      let r2 := skipWsLoop wdec r1.1 r1.2
      { e with cursor := { e.cursor with x := min r2.2 (utf8Len line) } }
    else if wdec e.cursor.y < e.buffer.line_count then
      jump_cursor_word { e with cursor := ⟨0, wdec e.cursor.y⟩ }
    else e

/-- `Editor::save_buffer`. -/
def save_buffer (fs : FS) (e : Editor) (filename : List Char) : Editor :=
  if fs.writeOk filename then
    { e with buffer := { e.buffer with buffer_name := fs.fileName filename } }
  else e

/-- `str::trim` (whitespace stripped from both ends). -/
def trimChars (s : List Char) : List Char :=
  ((s.dropWhile Char.isWhitespace).reverse.dropWhile Char.isWhitespace).reverse

/-- `Editor::execute_command`. The returned `Bool` is the function's
(always-`false`) result. -/
def execute_command (fs : FS) (e : Editor) (command : List Char) : Editor × Bool :=
  let cmd := trimChars command
  if cmd = "w".toList ∨ cmd = "write".toList then
    (if e.buffer.buffer_name ≠ [] ∧ e.buffer.buffer_name ≠ "Untitled".toList then
      save_buffer fs e e.buffer.buffer_name
     else e, false)
  else if "w ".toList.isPrefixOf cmd then
    let filename := trimChars (cmd.drop 2)
    (if filename ≠ [] then save_buffer fs e filename else e, false)
  else if "e ".toList.isPrefixOf cmd then
    let filename := trimChars (cmd.drop 2)
    (if filename ≠ [] then
      match open_file fs filename with
      | some buffer => { e with buffer := buffer, cursor := ⟨0, 0⟩ }
      | none => e
     else e, false)
  else (e, false)

/-- `c.to_digit(10).unwrap() as usize` for an ASCII digit `c`. -/
def digitVal (c : Char) : Nat := c.toNat - '0'.toNat

/-- The big `match key` of `Editor::handle_normal_mode`, reached when no
`d`-prefix is pending. The arms appear in source order; in particular
the ASCII-digit guard precedes the `Char('0')` arm. The returned `Bool`
is the function's result (always `false` in Normal mode). `none` models
a panic inside an edit operation. -/
def normalCore (e : Editor) (k : KeyCode) : Option (Editor × Bool) :=
  match k with
  | .char c =>
    if c.isDigit then
      let n := satAdd (satMul (e.motion_count.getD 0) 10) (digitVal c)
      some ({ e with motion_count := some n }, false)
    else if c = 'j' then
      some (move_cursor_down^[e.motion_count.getD 1] { e with motion_count := none }, false)
    else if c = 'k' then
      some (move_cursor_up^[e.motion_count.getD 1] { e with motion_count := none }, false)
    else if c = 'h' then
      some (move_cursor_left^[e.motion_count.getD 1] { e with motion_count := none }, false)
    else if c = 'l' then
      some (move_cursor_right^[e.motion_count.getD 1] { e with motion_count := none }, false)
    else if c = 'w' then
      some (jump_cursor_word^[e.motion_count.getD 1] { e with motion_count := none }, false)
    else if c = 'b' then
      some (jump_cursor_word_reverse^[e.motion_count.getD 1] { e with motion_count := none }, false)
    else if c = 'd' then
      some ({ e with last_key := some (.char 'd'), motion_count := none }, false)
    else if c = 'x' then
      (delete_char_at_cursor e).map (fun e1 => ({ e1 with motion_count := none }, false))
    else if c = 'i' then
      some ({ e with mode := .insert, motion_count := none }, false)
    else if c = ':' then
      some ({ e with
              mode := .command
              command_prompt := e.command_prompt.activate
              motion_count := none }, false)
    else if c = '0' then
      if e.motion_count.isSome then
        some ({ e with motion_count := some (satMul (e.motion_count.getD 0) 10) }, false)
      else
        some ({ e with cursor := { e.cursor with x := 0 } }, false)
    else if c = '$' then
      let e1 :=
        match e.buffer.get_line e.cursor.y with
        | some line => { e with cursor := { e.cursor with x := utf8Len line - 1 } }
        | none => e
      some ({ e1 with motion_count := none }, false)
    else if c = 'g' then
      some ({ e with cursor := ⟨0, 0⟩, motion_count := none }, false)
    else if c = 'G' then
      some ({ e with cursor := ⟨0, e.buffer.line_count - 1⟩, motion_count := none }, false)
    else
      some ({ e with motion_count := none }, false)
  | _ => some ({ e with motion_count := none }, false)

/-- `Editor::handle_normal_mode`. The source's recursive re-dispatch
after cancelling a pending `d`-prefix is exactly one level deep (it
clears `last_key` first), so it is expanded into the `else` branch. -/
def handle_normal_mode (e : Editor) (k : KeyCode) : Option (Editor × Bool) :=
  if e.last_key = some (.char 'd') then
    if k = .char 'd' then
      (delete_current_line e).map
        (fun e1 => ({ e1 with last_key := none, motion_count := none }, false))
    else normalCore { e with last_key := none } k
  else normalCore e k

/-- `Editor::handle_insert_mode`. -/
def handle_insert_mode (e : Editor) (k : KeyCode) : Option (Editor × Bool) :=
  match k with
  | .esc => some ({ e with mode := .normal }, false)
  | .char c => (insert_char e c).map (fun e1 => (e1, false))
  | .backspace => (delete_char_before_cursor e).map (fun e1 => (e1, false))
  | .delete => (delete_char_at_cursor e).map (fun e1 => (e1, false))
  | .enter => (insert_newline e).map (fun e1 => (e1, false))
  | .left => some (move_cursor_left e, false)
  | .right => some (move_cursor_right e, false)
  | .up => some (move_cursor_up e, false)
  | .down => some (move_cursor_down e, false)
  | _ => some (e, false)

/-- `Editor::handle_command_mode`. -/
def handle_command_mode (fs : FS) (e : Editor) (k : KeyCode) : Option (Editor × Bool) :=
  let r := e.command_prompt.handle_key k
  let e1 := { e with command_prompt := r.2 }
  let step :=
    match r.1 with
    | some command =>
      if command = "q".toList ∨ command = "quit".toList then (e1, true)
      else ({ (execute_command fs e1 command).1 with mode := .normal }, false)
    | none => (e1, false)
  if step.2 then some step
  else if ¬ step.1.command_prompt.active then some ({ step.1 with mode := .normal }, false)
  else some step

/-- `Editor::handle_keypress`: dispatch on the current mode. -/
def handle_keypress (fs : FS) (e : Editor) (k : KeyCode) : Option (Editor × Bool) :=
  match e.mode with
  | .normal => handle_normal_mode e k
  | .insert => handle_insert_mode e k
  | .command => handle_command_mode fs e k

/-- Feed a sequence of keys to the editor (the surrounding input loop),
propagating a panic (`none`) and keeping only the editor state. -/
def pressKeys (fs : FS) (e : Editor) (ks : List KeyCode) : Option Editor :=
  ks.foldl (fun oe k => oe.bind fun e1 => (handle_keypress fs e1 k).map Prod.fst) (some e)

/-- `total_lines.to_string().len()`: the number of decimal digits used
for the line-number gutter. -/
def decDigits (n : Nat) : Nat := (Nat.toDigits 10 n).length

/-- The visible text rows in `Editor::prepare_render_buffer`:
`height.saturating_sub(2)` (status bar and command-prompt rows). -/
def visibleLines (e : Editor) : Nat := e.height - 2

/-- The visible text columns in `Editor::prepare_render_buffer`:
`width.saturating_sub(line_number_width + 2)`. -/
def visibleCols (e : Editor) : Nat := e.width - (decDigits e.buffer.line_count + 2)

/-- The viewport-adjustment step at the top of
`Editor::prepare_render_buffer` (run at the start of every
`Editor::render` call), which snaps `viewport_x`/`viewport_y` to the
cursor. -/
def adjust_viewport (e : Editor) : Editor :=
  let vy :=
    if e.cursor.y < e.viewport_y then e.cursor.y
    else if e.viewport_y + visibleLines e ≤ e.cursor.y then e.cursor.y - visibleLines e + 1
    else e.viewport_y
  let vx :=
    if e.cursor.x < e.viewport_x then e.cursor.x
    else if e.viewport_x + visibleCols e ≤ e.cursor.x then e.cursor.x - visibleCols e + 1
    else e.viewport_x
  { e with viewport_y := vy, viewport_x := vx }

/-- The crossterm colors the renderer uses. -/
inductive Color where
  | reset
  | black
  | white
  | red
  | green
  | yellow
  | darkGrey
  | darkBlue
deriving DecidableEq

/-- `src/buffer/render_cell.rs`. -/
structure RenderCell where
  ch : Char
  fg : Color
  bg : Color
  bold : Bool
  italic : Bool
deriving DecidableEq

/-- `RenderCell::default`. -/
def RenderCell.default : RenderCell := ⟨' ', .reset, .reset, false, false⟩

/-- `src/buffer/render_buffer.rs`. -/
structure RenderBuffer where
  buffer : List (List RenderCell)
  width : Nat
  height : Nat
deriving DecidableEq

/-- `RenderBuffer::new`: a `height × width` grid of default cells. -/
def RenderBuffer.new (width height : Nat) : RenderBuffer :=
  ⟨List.replicate height (List.replicate width RenderCell.default), width, height⟩

/-- `RenderBuffer::get_cell`. -/
def RenderBuffer.get_cell (rb : RenderBuffer) (x y : Nat) : Option RenderCell :=
  (rb.buffer.get? y).bind fun row => row.get? x

/-- Rows have length `width` and there are `height` of them. -/
def RenderBuffer.wf (rb : RenderBuffer) : Prop :=
  rb.buffer.length = rb.height ∧ ∀ row ∈ rb.buffer, row.length = rb.width

instance (rb : RenderBuffer) : Decidable (rb.wf) := by
  unfold RenderBuffer.wf; infer_instance

/-- The diff loop of `Editor::render`: for each coordinate of the
current grid (row-major), emit a positioned write of the current cell
when it differs from the previous grid's cell and is present. -/
def diffWrites (cur prev : RenderBuffer) : List (Nat × Nat × RenderCell) :=
  (List.range cur.height).flatMap fun y =>
    (List.range cur.width).filterMap fun x =>
      if cur.get_cell x y ≠ prev.get_cell x y then
        (cur.get_cell x y).map fun cell => (x, y, cell)
      else none

/-- The single-step primitive of each motion key, as dispatched by
`Editor::handle_normal_mode`. -/
def motionOf (m : Char) : Editor → Editor :=
  if m = 'h' then move_cursor_left
  else if m = 'j' then move_cursor_down
  else if m = 'k' then move_cursor_up
  else if m = 'l' then move_cursor_right
  else if m = 'w' then jump_cursor_word
  else if m = 'b' then jump_cursor_word_reverse
  else id

/-- The decimal digit characters of `n`, most significant first
(empty for `0`): the keystrokes that enter the repeat count `n`. -/
def decimalDigits : Nat → List Char
  | 0 => []
  | n + 1 => decimalDigits ((n + 1) / 10) ++ [Nat.digitChar ((n + 1) % 10)]
decreasing_by exact Nat.div_lt_self (Nat.succ_pos n) (by decide)

/-- The repeat-count accumulator of the digit arm:
`count = count.saturating_mul(10).saturating_add(digit)`. -/
def foldDigits (a : Nat) (ds : List Char) : Nat :=
  ds.foldl (fun acc c => satAdd (satMul acc 10) (digitVal c)) a

/-- A file system on which every read fails and every write fails. -/
def fsNone : FS := ⟨fun _ => none, id, fun _ => false⟩

/-- A concrete editor state over a fresh buffer, for the concrete
examples below: 80×24 terminal grid, viewport at the origin, no pending
key or count. -/
def mkEditor (t : List Char) (cx cy : Nat) (m : Mode) : Editor :=
  ⟨Buffer.new "t".toList t, ⟨cx, cy⟩, m, CommandPrompt.new, 0, 0, none, none, 80, 24⟩

/-- C1: the line-offset invariant does NOT survive every operation.
Inserting a newline at (row 0, col 2) of `"ab\ncd"` (Insert mode,
Enter) produces text `"ab\n\ncd"` but leaves `line_offsets = [0,3,3]`:
the offsets following the insertion point are never shifted, so the
index is not strictly increasing and `offsets[2] = 3` is not the byte
offset of line 2 (a fresh scan gives `[0,3,4]`). -/
theorem c1_insert_newline_breaks_offsets :
    (pressKeys fsNone (mkEditor "ab\ncd".toList 2 0 .insert) [KeyCode.enter]).map
        (fun e => (e.buffer.text, e.buffer.line_offsets)) =
      some ("ab\n\ncd".toList, [0, 3, 3])
    ∧ lineOffsetsOf "ab\n\ncd".toList = [0, 3, 4]
    ∧ ¬ List.Pairwise (· < ·) [0, 3, 3] := by decide

/-- C2: "dd" at row 0 of `"ab\ncd"` does not yield text `"cd"` with
`line_offsets = [0]`. `delete_current_line` erases the byte range
`[line_start, next_offset - 1)`, which excludes the line's newline, and
never shifts the later offsets: the result is text `"\ncd"` with
`line_offsets = [3]` (cursor column 0). -/
theorem c2_dd_keeps_newline_and_stale_offsets :
    (pressKeys fsNone (mkEditor "ab\ncd".toList 0 0 .normal)
        [KeyCode.char 'd', KeyCode.char 'd']).map
        (fun e => (e.buffer.text, e.buffer.line_offsets, e.cursor.x)) =
      some ("\ncd".toList, [3], 0) := by decide

/-- C4: pressing '0' in Normal mode with no active repeat count does not
move the cursor to column 0. The ASCII-digit match arm precedes the
`Char('0')` arm and also matches '0', so the key folds into a pending
count of `0` and the cursor stays where it was (here column 5). -/
theorem c4_zero_key_folds_into_count :
    (handle_keypress fsNone (mkEditor "abcdef".toList 5 0 .normal) (KeyCode.char '0')).map
        (fun p => (p.1.cursor.x, p.1.motion_count)) = some (5, some 0)
    ∧ (5 : Nat) ≠ 0 := by decide

/-- C5: deleting the character under the cursor with the cursor at the
very end of the text panics. On buffer `"a"`, `l` moves the cursor to
column 1 (= character count), and `x` then computes byte position 1 =
`text.len()`, where `String::remove` panics (modelled by `none`). -/
theorem c5_delete_at_text_end_panics :
    pressKeys fsNone (mkEditor "a".toList 0 0 .normal)
      [KeyCode.char 'l', KeyCode.char 'x'] = none := by decide

/-- C6 fails as stated: executing `e f` when loading `f` fails leaves
the editor unchanged — the buffer is NOT replaced by an empty buffer
named after the path (the current buffer still holds `"ab"` under its
old name), though the command indeed signals no termination (`false`). -/
theorem c6_failed_load_keeps_buffer :
    execute_command fsNone (mkEditor "ab".toList 1 0 .normal) "e f".toList =
      (mkEditor "ab".toList 1 0 .normal, false)
    ∧ (mkEditor "ab".toList 1 0 .normal).buffer.text ≠ [] := by decide

/-- C8 fails as stated when the terminal is too small for any text row:
with `height = 2` every row is reserved (`visibleLines = 0`), and the
adjustment moves the viewport to `cursor.y + 1`, after which the cursor
row cannot lie in the empty window `[viewport, viewport + 0)`. -/
theorem c8_zero_visible_rows_counterexample :
    ¬ ((adjust_viewport { mkEditor "a".toList 0 0 .normal with height := 2 }).viewport_y ≤
          (mkEditor "a".toList 0 0 .normal).cursor.y
        ∧ (mkEditor "a".toList 0 0 .normal).cursor.y <
          (adjust_viewport { mkEditor "a".toList 0 0 .normal with height := 2 }).viewport_y +
            visibleLines { mkEditor "a".toList 0 0 .normal with height := 2 }) := by decide

theorem byteDrop_zero (s : List Char) : byteDrop s 0 = some s := by
  cases s <;> rfl

theorem byteTake_zero (s : List Char) : byteTake s 0 = some [] := by
  cases s <;> rfl

theorem utf8Len_append (a b : List Char) : utf8Len (a ++ b) = utf8Len a + utf8Len b := by
  induction a with
  | nil => simp [utf8Len]
  | cons c r ih => simp [utf8Len, ih]; omega

theorem utf8Len_cons_pos (c : Char) (r : List Char) : 0 < utf8Len (c :: r) := by
  have := Char.utf8Size_pos c
  simp [utf8Len]; omega

theorem utf8Len_eq_zero {a : List Char} (h : utf8Len a = 0) : a = [] := by
  cases a with
  | nil => rfl
  | cons c r => exact absurd h (by have := utf8Len_cons_pos c r; omega)

theorem byteDrop_pos (c : Char) (rest : List Char) {n : Nat} (h : 0 < n) :
    byteDrop (c :: rest) n =
      if c.utf8Size ≤ n then byteDrop rest (n - c.utf8Size) else none := by
  obtain ⟨m, rfl⟩ : ∃ m, n = m + 1 := ⟨n - 1, by omega⟩
  rfl

theorem byteTake_pos (c : Char) (rest : List Char) {n : Nat} (h : 0 < n) :
    byteTake (c :: rest) n =
      if c.utf8Size ≤ n then (byteTake rest (n - c.utf8Size)).map (c :: ·) else none := by
  obtain ⟨m, rfl⟩ : ∃ m, n = m + 1 := ⟨n - 1, by omega⟩
  rfl

theorem removeAtByte_pos (c : Char) (rest : List Char) {n : Nat} (h : 0 < n) :
    removeAtByte (c :: rest) n =
      if c.utf8Size ≤ n then
        (removeAtByte rest (n - c.utf8Size)).map (fun p => (p.1, c :: p.2))
      else none := by
  obtain ⟨m, rfl⟩ : ∃ m, n = m + 1 := ⟨n - 1, by omega⟩
  rfl

theorem byteDrop_append (a b : List Char) : byteDrop (a ++ b) (utf8Len a) = some b := by
  induction a with
  | nil => simpa [utf8Len] using byteDrop_zero b
  | cons c r ih =>
    have hc := Char.utf8Size_pos c
    rw [List.cons_append, byteDrop_pos c (r ++ b) (utf8Len_cons_pos c r),
      if_pos (by simp [utf8Len])]
    have : utf8Len (c :: r) - c.utf8Size = utf8Len r := by simp [utf8Len]
    rw [this, ih]

theorem byteTake_append (a b : List Char) : byteTake (a ++ b) (utf8Len a) = some a := by
  induction a with
  | nil => simpa [utf8Len] using byteTake_zero b
  | cons c r ih =>
    have hc := Char.utf8Size_pos c
    rw [List.cons_append, byteTake_pos c (r ++ b) (utf8Len_cons_pos c r),
      if_pos (by simp [utf8Len])]
    have : utf8Len (c :: r) - c.utf8Size = utf8Len r := by simp [utf8Len]
    rw [this, ih]
    rfl

theorem byteTake_all (s : List Char) : byteTake s (utf8Len s) = some s := by
  have := byteTake_append s []
  simpa using this

theorem removeAtByte_append (a : List Char) (c : Char) (b : List Char) :
    removeAtByte (a ++ c :: b) (utf8Len a) = some (c, a ++ b) := by
  induction a with
  | nil => rfl
  | cons d r ih =>
    have hd := Char.utf8Size_pos d
    rw [List.cons_append, removeAtByte_pos d (r ++ c :: b) (utf8Len_cons_pos d r),
      if_pos (by simp [utf8Len])]
    have : utf8Len (d :: r) - d.utf8Size = utf8Len r := by simp [utf8Len]
    rw [this, ih]
    rfl

theorem byteDrop_eq_some {s : List Char} {n : Nat} {r : List Char}
    (h : byteDrop s n = some r) : ∃ a, s = a ++ r ∧ utf8Len a = n := by
  induction s generalizing n with
  | nil =>
    cases n with
    | zero =>
      rw [byteDrop_zero] at h
      have hr : ([] : List Char) = r := by simpa using h
      exact ⟨[], by simp [hr], rfl⟩
    | succ m => simp [byteDrop] at h
  | cons c rest ih =>
    cases n with
    | zero =>
      rw [byteDrop_zero] at h
      have hr : c :: rest = r := by simpa using h
      exact ⟨[], by simp [hr], rfl⟩
    | succ m =>
      rw [byteDrop] at h
      split_ifs at h with hsz
      obtain ⟨a, rfl, hlen⟩ := ih h
      have := Char.utf8Size_pos c
      exact ⟨c :: a, by simp, by simp [utf8Len]; omega⟩

theorem byteTake_eq_some {s : List Char} {n : Nat} {t : List Char}
    (h : byteTake s n = some t) : ∃ b, s = t ++ b ∧ utf8Len t = n := by
  induction s generalizing n t with
  | nil =>
    cases n with
    | zero =>
      rw [byteTake_zero] at h
      have ht : ([] : List Char) = t := by simpa using h
      exact ⟨[], by simp [← ht], by simp [← ht, utf8Len]⟩
    | succ m => simp [byteTake] at h
  | cons c rest ih =>
    cases n with
    | zero =>
      rw [byteTake_zero] at h
      have ht : ([] : List Char) = t := by simpa using h
      exact ⟨c :: rest, by simp [← ht], by simp [← ht, utf8Len]⟩
    | succ m =>
      rw [byteTake] at h
      split_ifs at h with hsz
      rw [Option.map_eq_some'] at h
      obtain ⟨t1, ht1, rfl⟩ := h
      obtain ⟨b, rfl, hlen⟩ := ih ht1
      have := Char.utf8Size_pos c
      exact ⟨b, by simp, by simp [utf8Len]; omega⟩

theorem utf8_append_eq_split {a0 r0 a1 r1 : List Char} (h : a0 ++ r0 = a1 ++ r1)
    (hle : utf8Len a0 ≤ utf8Len a1) : ∃ m, a1 = a0 ++ m ∧ r0 = m ++ r1 := by
  induction a0 generalizing a1 with
  | nil => exact ⟨a1, rfl, by simpa using h⟩
  | cons c r ih =>
    cases a1 with
    | nil =>
      exfalso
      have := Char.utf8Size_pos c
      simp [utf8Len] at hle
      omega
    | cons d s =>
      simp only [List.cons_append, List.cons.injEq] at h
      obtain ⟨rfl, h2⟩ := h
      have hle2 : utf8Len r ≤ utf8Len s := by simp [utf8Len] at hle; omega
      obtain ⟨m, rfl, hr⟩ := ih h2 hle2
      exact ⟨m, by simp, hr⟩

theorem charIdxOrEnd_take (s : List Char) (col : Nat) :
    charIdxOrEnd s col = utf8Len (s.take col) := by
  induction s generalizing col with
  | nil => cases col <;> simp [charIdxOrEnd, utf8Len]
  | cons c rest ih =>
    cases col with
    | zero => simp [charIdxOrEnd, utf8Len]
    | succ k => simp [charIdxOrEnd, utf8Len, ih]

theorem charIdxOrEnd_of_le {s : List Char} {col : Nat} (h : s.length ≤ col) :
    charIdxOrEnd s col = utf8Len s := by
  rw [charIdxOrEnd_take, List.take_of_length_le h]

theorem newlinePositions_gt {s : List Char} {p o : Nat}
    (h : o ∈ newlinePositions s p) : p < o := by
  induction s generalizing p with
  | nil => simp [newlinePositions] at h
  | cons c rest ih =>
    rw [newlinePositions] at h
    have hsz := Char.utf8Size_pos c
    split_ifs at h with hc
    · rcases List.mem_cons.mp h with h1 | h1
      · omega
      · have := ih h1; omega
    · have := ih h; omega

theorem newlinePositions_pairwise (s : List Char) (p : Nat) :
    List.Pairwise (· < ·) (newlinePositions s p) := by
  induction s generalizing p with
  | nil => simp [newlinePositions]
  | cons c rest ih =>
    rw [newlinePositions]
    split_ifs with hc
    · refine List.Pairwise.cons (fun o ho => ?_) (ih _)
      have h1 := newlinePositions_gt ho
      have h2 : c.utf8Size = 1 := by rw [hc]; rfl
      omega
    · exact ih _

theorem newlinePositions_decomp {s : List Char} {p o : Nat}
    (h : o ∈ newlinePositions s p) :
    ∃ a b, s = a ++ '\n' :: b ∧ o = p + utf8Len a + 1 := by
  induction s generalizing p with
  | nil => simp [newlinePositions] at h
  | cons c rest ih =>
    rw [newlinePositions] at h
    split_ifs at h with hc
    · rcases List.mem_cons.mp h with h1 | h1
      · exact ⟨[], rest, by simp [hc], by simpa [utf8Len] using h1⟩
      · obtain ⟨a, b, rfl, ho⟩ := ih h1
        exact ⟨c :: a, b, by simp, by simp [utf8Len] at ho ⊢; omega⟩
    · obtain ⟨a, b, rfl, ho⟩ := ih h
      exact ⟨c :: a, b, by simp, by simp [utf8Len] at ho ⊢; omega⟩

theorem lineOffsetsOf_pairwise (s : List Char) :
    List.Pairwise (· < ·) (lineOffsetsOf s) := by
  refine List.Pairwise.cons (fun o ho => ?_) (newlinePositions_pairwise s 0)
  exact newlinePositions_gt ho

theorem pairwise_getD_lt {l : List Nat} (hp : List.Pairwise (· < ·) l) {i j : Nat}
    (hij : i < j) (hj : j < l.length) : l.getD i 0 < l.getD j 0 := by
  have hi : i < l.length := by omega
  rw [List.getD_eq_get _ _ hi, List.getD_eq_get _ _ hj]
  exact List.pairwise_iff_get.mp hp ⟨i, hi⟩ ⟨j, hj⟩ hij

/-- Every stored offset of a well-formed buffer at index `i ≥ 1` comes
from a newline: the text splits as `a ++ '\n' :: b` with the offset one
past that newline. -/
theorem offset_decomp {b : Buffer} (hwf : BufferWF b) {i : Nat}
    (hi1 : 1 ≤ i) (hi : i < b.line_offsets.length) :
    ∃ a c, b.text = a ++ '\n' :: c ∧ b.line_offsets.getD i 0 = utf8Len a + 1 := by
  obtain ⟨k, rfl⟩ : ∃ k, i = k + 1 := ⟨i - 1, by omega⟩
  have hlen : k < (newlinePositions b.text 0).length := by
    rw [BufferWF, lineOffsetsOf] at hwf
    rw [hwf] at hi
    simpa using hi
  have hmem : (newlinePositions b.text 0).getD k 0 ∈ newlinePositions b.text 0 := by
    rw [List.getD_eq_get _ _ hlen]
    exact List.get_mem _ _ _
  obtain ⟨a, c, hac, ho⟩ := newlinePositions_decomp hmem
  refine ⟨a, c, hac, ?_⟩
  have : b.line_offsets.getD (k + 1) 0 = (newlinePositions b.text 0).getD k 0 := by
    rw [BufferWF, lineOffsetsOf] at hwf
    rw [hwf]
    rfl
  rw [this, ho]
  omega

/-- The start offset of each line of a well-formed buffer is a prefix
boundary of the text. -/
theorem offset_boundary {b : Buffer} (hwf : BufferWF b) {i : Nat}
    (hi : i < b.line_offsets.length) :
    ∃ pre r, b.text = pre ++ r ∧ utf8Len pre = b.line_offsets.getD i 0 := by
  cases i with
  | zero =>
    refine ⟨[], b.text, rfl, ?_⟩
    rw [BufferWF, lineOffsetsOf] at hwf
    rw [hwf]
    rfl
  | succ k =>
    obtain ⟨a, c, hac, ho⟩ := offset_decomp hwf (by omega) hi
    refine ⟨a ++ ['\n'], c, by simpa using hac, ?_⟩
    rw [ho, utf8Len_append]
    have : utf8Len ['\n'] = 1 := rfl
    omega

/-- Master decomposition of `Buffer::get_line` on a well-formed buffer:
the call succeeds, the text splits around the returned line at the
stored offsets, a following line is separated by exactly one `'\n'`
(whose position determines the next offset), and the last line extends
to the end of the text. -/
theorem get_line_decomp (b : Buffer) (hwf : BufferWF b) (i : Nat)
    (hi : i < b.line_offsets.length) :
    ∃ lt pre suf,
      b.get_line i = some lt ∧
      b.text = pre ++ lt ++ suf ∧
      utf8Len pre = b.line_offsets.getD i 0 ∧
      (i + 1 < b.line_offsets.length →
        ∃ suf2, suf = '\n' :: suf2 ∧
          b.line_offsets.getD (i + 1) 0 = utf8Len pre + utf8Len lt + 1) ∧
      (b.line_offsets.length ≤ i + 1 → suf = []) := by
  obtain ⟨pre, r, htext, hpre⟩ := offset_boundary hwf hi
  have hsorted : List.Pairwise (· < ·) b.line_offsets := by
    rw [BufferWF] at hwf; rw [hwf]; exact lineOffsetsOf_pairwise _
  by_cases hnext : i + 1 < b.line_offsets.length
  · -- an inner line: the next offset marks the separating newline
    obtain ⟨a1, b1, hac, ho⟩ := offset_decomp hwf (by omega) hnext
    have hlt : b.line_offsets.getD i 0 < b.line_offsets.getD (i + 1) 0 :=
      pairwise_getD_lt hsorted (by omega) hnext
    have hle : utf8Len pre ≤ utf8Len a1 := by omega
    obtain ⟨m, rfl, hr⟩ := utf8_append_eq_split (htext ▸ hac.symm ▸ rfl : pre ++ r = a1 ++ '\n' :: b1) hle
    refine ⟨m, pre, '\n' :: b1, ?_, ?_, hpre, ?_, ?_⟩
    · rw [Buffer.get_line, if_neg (by omega)]
      simp only
      rw [if_pos hnext]
      have hstop : b.line_offsets.getD (i + 1) 0 - 1 = utf8Len pre + utf8Len m := by
        rw [ho, utf8Len_append]; omega
      rw [hstop, byteSlice, if_pos (by omega), htext, hr, ← hpre,
        byteDrop_append pre (m ++ '\n' :: b1)]
      have harg : utf8Len pre + utf8Len m - utf8Len pre = utf8Len m := by omega
      rw [harg]
      exact byteTake_append m ('\n' :: b1)
    · rw [htext, hr]; simp
    · intro _
      exact ⟨b1, rfl, by rw [ho, utf8Len_append]⟩
    · intro h; omega
  · -- the last line: it extends to the end of the text
    refine ⟨r, pre, [], ?_, by simp [htext], hpre, by omega, fun _ => rfl⟩
    rw [Buffer.get_line, if_neg (by omega)]
    simp only
    rw [if_neg hnext]
    have htot : utf8Len b.text = utf8Len pre + utf8Len r := by
      rw [htext, utf8Len_append]
    rw [byteSlice, if_pos (by omega), htext, ← hpre, byteDrop_append pre r]
    have harg : utf8Len (pre ++ r) - utf8Len pre = utf8Len r := by
      rw [utf8Len_append]; omega
    rw [harg]
    exact byteTake_all r


/-- C3: `char_to_byte_position(row, col)` walks the line's character
boundaries: on a well-formed buffer it is absent exactly on
out-of-range rows, on every valid row it returns a byte offset that is
a UTF-8 character boundary of the text (never inside a multi-byte
encoding), and a column at or past the line's character count clamps
to the line's byte length (the append position
`line_start + utf8Len line`). -/
theorem char_to_byte_position_spec (b : Buffer) (hwf : BufferWF b) :
    (∀ row col, b.line_offsets.length ≤ row → b.char_to_byte_position row col = none)
    ∧ (∀ row col, row < b.line_offsets.length →
        ∃ p, b.char_to_byte_position row col = some p ∧ isBoundary b.text p)
    ∧ (∀ row col lt, b.get_line row = some lt → lt.length ≤ col →
        b.char_to_byte_position row col =
          some (b.line_offsets.getD row 0 + utf8Len lt)) := by
  refine ⟨fun row col h => ?_, fun row col h => ?_, fun row col lt hlt hcol => ?_⟩
  · rw [Buffer.char_to_byte_position, if_pos h]
  · obtain ⟨lt, pre, suf, hgl, htext, hpre, _, _⟩ := get_line_decomp b hwf row h
    refine ⟨b.line_offsets.getD row 0 + charIdxOrEnd lt col, ?_, ?_⟩
    · rw [Buffer.char_to_byte_position, if_neg (by omega), hgl]
    · rw [charIdxOrEnd_take, ← hpre]
      refine ⟨pre.length + min col lt.length, ?_, ?_⟩
      · rw [htext]
        simp [List.length_append]
      · rw [htext, List.append_assoc, List.take_append, ← utf8Len_append]
        congr 2
        rw [List.take_append_of_le_length (Nat.min_le_right _ _),
          ← List.take_take col lt.length lt, List.take_length]
  · have hrow : ¬ b.line_offsets.length ≤ row := by
      intro hc
      rw [Buffer.get_line, if_pos hc] at hlt
      exact Option.noConfusion hlt
    rw [Buffer.char_to_byte_position, if_neg hrow, hlt]
    show some (b.line_offsets.getD row 0 + charIdxOrEnd lt col) = _
    rw [charIdxOrEnd_of_le hcol]

/-- Witness for `char_to_byte_position_spec` on the concrete buffer
`"aé\nb"` (with a two-byte character) at (row 0, col 2): the returned
offset is a character boundary. -/
theorem char_to_byte_position_spec_witness :
    BufferWF (Buffer.new "n".toList "aé\nb".toList)
    ∧ ∃ p, (Buffer.new "n".toList "aé\nb".toList).char_to_byte_position 0 2 = some p
        ∧ isBoundary (Buffer.new "n".toList "aé\nb".toList).text p :=
  ⟨by decide,
    (char_to_byte_position_spec (Buffer.new "n".toList "aé\nb".toList) (by decide)).2.1
      0 2 (by decide)⟩

theorem mapFrom_append_left (A B : List Nat) (f : Nat → Nat) (i : Nat)
    (h : A.length = i) : mapFrom (A ++ B) i f = A ++ B.map f := by
  subst h
  rw [mapFrom, List.take_left, List.drop_left]

theorem findIdx?_sorted_aux {l : List Nat} (hp : List.Pairwise (· < ·) l) {j : Nat}
    (hj : j < l.length) (i : Nat) :
    List.findIdx? (fun p => p = l.getD j 0) l i = some (i + j) := by
  induction l generalizing j i with
  | nil => simp at hj
  | cons a tl ih =>
    cases j with
    | zero => rw [List.findIdx?_cons]; simp
    | succ k =>
      have hk : k < tl.length := by simpa using hj
      have hval : (a :: tl).getD (k + 1) 0 = tl.getD k 0 := rfl
      rw [List.findIdx?_cons, hval]
      have hane : ¬ a = tl.getD k 0 := by
        have hmem : tl.getD k 0 ∈ tl := by
          rw [List.getD_eq_getElem _ _ hk]
          exact List.getElem_mem _
        have := (List.pairwise_cons.mp hp).1 _ hmem
        omega
      rw [if_neg (by simpa using hane)]
      rw [ih (List.pairwise_cons.mp hp).2 hk (i + 1)]
      congr 1
      omega

theorem findIdx?_sorted {l : List Nat} (hp : List.Pairwise (· < ·) l) {j v : Nat}
    (hj : j < l.length) (hv : l.getD j 0 = v) :
    l.findIdx? (fun p => p = v) = some j := by
  subst hv
  simpa using findIdx?_sorted_aux hp hj 0

/-- C10: with the cursor at or past the end of a line that is not the
last line, `delete_char_at_cursor` (Normal-mode `x`, Insert-mode
forward delete) removes exactly the joining newline — the text loses
the `'\n'` at byte position `line_start + utf8Len line` — and the next
line's offset entry is removed while every later offset is shifted
down by 1. -/
theorem delete_char_at_cursor_merges (e : Editor) (hwf : BufferWF e.buffer)
    (hrow : e.cursor.y + 1 < e.buffer.line_offsets.length)
    (lt : List Char) (hlt : e.buffer.get_line e.cursor.y = some lt)
    (hcol : lt.length ≤ e.cursor.x) :
    ∃ pre suf,
      e.buffer.text = pre ++ '\n' :: suf ∧
      utf8Len pre = e.buffer.line_offsets.getD e.cursor.y 0 + utf8Len lt ∧
      delete_char_at_cursor e = some { e with buffer := { e.buffer with
        text := pre ++ suf,
        line_offsets := e.buffer.line_offsets.take (e.cursor.y + 1) ++
          (e.buffer.line_offsets.drop (e.cursor.y + 2)).map (· - 1) } } := by
  obtain ⟨lt0, pre0, suf0, hgl, htext, hpre0, hnextf, _⟩ :=
    get_line_decomp e.buffer hwf e.cursor.y (by omega)
  have hlt0 : lt0 = lt := by
    rw [hgl] at hlt
    exact Option.some.inj hlt
  subst hlt0
  obtain ⟨suf2, rfl, hoff⟩ := hnextf hrow
  have hctbp := (char_to_byte_position_spec e.buffer hwf).2.2 e.cursor.y e.cursor.x lt0 hgl hcol
  have hwf' := hwf
  rw [BufferWF] at hwf'
  have hsorted : List.Pairwise (· < ·) e.buffer.line_offsets := by
    rw [hwf']
    exact lineOffsetsOf_pairwise _
  have hbp : utf8Len (pre0 ++ lt0) = e.buffer.line_offsets.getD e.cursor.y 0 + utf8Len lt0 := by
    rw [utf8Len_append, hpre0]
  have hrm : removeAtByte e.buffer.text
      (e.buffer.line_offsets.getD e.cursor.y 0 + utf8Len lt0) =
      some ('\n', (pre0 ++ lt0) ++ suf2) := by
    rw [htext, ← hbp]
    exact removeAtByte_append (pre0 ++ lt0) '\n' suf2
  have hfind : e.buffer.line_offsets.findIdx?
      (fun p => p = e.buffer.line_offsets.getD e.cursor.y 0 + utf8Len lt0 + 1) =
      some (e.cursor.y + 1) :=
    findIdx?_sorted hsorted hrow (by omega)
  have hM : mapFrom (e.buffer.line_offsets.eraseIdx (e.cursor.y + 1)) (e.cursor.y + 1) (· - 1)
      = e.buffer.line_offsets.take (e.cursor.y + 1) ++
        (e.buffer.line_offsets.drop (e.cursor.y + 2)).map (· - 1) := by
    rw [List.eraseIdx_eq_take_drop_succ,
      show e.cursor.y + 1 + 1 = e.cursor.y + 2 from rfl]
    exact mapFrom_append_left _ _ _ _ (by rw [List.length_take]; omega)
  refine ⟨pre0 ++ lt0, suf2, by simpa using htext, hbp, ?_⟩
  rw [delete_char_at_cursor, hctbp]
  simp only [hrm, hfind, hM]
  simp

/-- Witness for `delete_char_at_cursor_merges`: buffer `"ab\ncd\nef"`,
cursor (row 0, col 2) — at the end of line 0, which is not the last
line. -/
theorem delete_char_at_cursor_merges_witness :
    BufferWF (mkEditor "ab\ncd\nef".toList 2 0 .normal).buffer
    ∧ (mkEditor "ab\ncd\nef".toList 2 0 .normal).cursor.y + 1 <
        (mkEditor "ab\ncd\nef".toList 2 0 .normal).buffer.line_offsets.length
    ∧ (mkEditor "ab\ncd\nef".toList 2 0 .normal).buffer.get_line
        (mkEditor "ab\ncd\nef".toList 2 0 .normal).cursor.y = some "ab".toList
    ∧ "ab".toList.length ≤ (mkEditor "ab\ncd\nef".toList 2 0 .normal).cursor.x
    ∧ ∃ pre suf,
        (mkEditor "ab\ncd\nef".toList 2 0 .normal).buffer.text = pre ++ '\n' :: suf ∧
        utf8Len pre =
          (mkEditor "ab\ncd\nef".toList 2 0 .normal).buffer.line_offsets.getD
            (mkEditor "ab\ncd\nef".toList 2 0 .normal).cursor.y 0 + utf8Len "ab".toList ∧
        delete_char_at_cursor (mkEditor "ab\ncd\nef".toList 2 0 .normal) =
          some { mkEditor "ab\ncd\nef".toList 2 0 .normal with
            buffer := { (mkEditor "ab\ncd\nef".toList 2 0 .normal).buffer with
              text := pre ++ suf,
              line_offsets :=
                (mkEditor "ab\ncd\nef".toList 2 0 .normal).buffer.line_offsets.take
                  ((mkEditor "ab\ncd\nef".toList 2 0 .normal).cursor.y + 1) ++
                ((mkEditor "ab\ncd\nef".toList 2 0 .normal).buffer.line_offsets.drop
                  ((mkEditor "ab\ncd\nef".toList 2 0 .normal).cursor.y + 2)).map (· - 1) } } :=
  ⟨by decide, by decide, by decide, by decide,
    delete_char_at_cursor_merges (mkEditor "ab\ncd\nef".toList 2 0 .normal)
      (by decide) (by decide) "ab".toList (by decide) (by decide)⟩

theorem snapSpec (c v vis : Nat) (hvis : 0 < vis) :
    ((if c < v then c else if v + vis ≤ c then c - vis + 1 else v) ≤ c
      ∧ c < (if c < v then c else if v + vis ≤ c then c - vis + 1 else v) + vis)
    ∧ (v ≤ c → c < v + vis →
        (if c < v then c else if v + vis ≤ c then c - vis + 1 else v) = v)
    ∧ ∀ u, u ≤ c → c < u + vis →
        Nat.dist v (if c < v then c else if v + vis ≤ c then c - vis + 1 else v) ≤
          Nat.dist v u := by
  refine ⟨?_, ?_, ?_⟩
  · split_ifs <;> omega
  · intro h1 h2
    split_ifs <;> omega
  · intro u h1 h2
    simp only [Nat.dist]
    split_ifs <;> omega

/-- C8 (amended): when at least one text row and one text column are
visible, the viewport step of `prepare_render_buffer` leaves the cursor
untouched and snaps the viewport so that the cursor lies within
`[viewport, viewport + visible)` on both axes; a viewport already
containing the cursor is unchanged, and any violation is repaired by
the minimal displacement among all in-window positions (never
re-centering). -/
theorem adjust_viewport_minimal_snap (e : Editor)
    (hL : 0 < visibleLines e) (hC : 0 < visibleCols e) :
    (adjust_viewport e).cursor = e.cursor
    ∧ ((adjust_viewport e).viewport_y ≤ e.cursor.y
        ∧ e.cursor.y < (adjust_viewport e).viewport_y + visibleLines e)
    ∧ ((adjust_viewport e).viewport_x ≤ e.cursor.x
        ∧ e.cursor.x < (adjust_viewport e).viewport_x + visibleCols e)
    ∧ (e.viewport_y ≤ e.cursor.y → e.cursor.y < e.viewport_y + visibleLines e →
        (adjust_viewport e).viewport_y = e.viewport_y)
    ∧ (e.viewport_x ≤ e.cursor.x → e.cursor.x < e.viewport_x + visibleCols e →
        (adjust_viewport e).viewport_x = e.viewport_x)
    ∧ (∀ u, u ≤ e.cursor.y → e.cursor.y < u + visibleLines e →
        Nat.dist e.viewport_y ((adjust_viewport e).viewport_y) ≤ Nat.dist e.viewport_y u)
    ∧ (∀ u, u ≤ e.cursor.x → e.cursor.x < u + visibleCols e →
        Nat.dist e.viewport_x ((adjust_viewport e).viewport_x) ≤ Nat.dist e.viewport_x u) := by
  have hy : (adjust_viewport e).viewport_y =
      (if e.cursor.y < e.viewport_y then e.cursor.y
       else if e.viewport_y + visibleLines e ≤ e.cursor.y then
         e.cursor.y - visibleLines e + 1
       else e.viewport_y) := rfl
  have hx : (adjust_viewport e).viewport_x =
      (if e.cursor.x < e.viewport_x then e.cursor.x
       else if e.viewport_x + visibleCols e ≤ e.cursor.x then
         e.cursor.x - visibleCols e + 1
       else e.viewport_x) := rfl
  obtain ⟨⟨hy1, hy2⟩, hy3, hy4⟩ := snapSpec e.cursor.y e.viewport_y (visibleLines e) hL
  obtain ⟨⟨hx1, hx2⟩, hx3, hx4⟩ := snapSpec e.cursor.x e.viewport_x (visibleCols e) hC
  rw [hy, hx]
  exact ⟨rfl, ⟨hy1, hy2⟩, ⟨hx1, hx2⟩, hy3, hx3, hy4, hx4⟩

/-- Witness for `adjust_viewport_minimal_snap` on a concrete 80×24
editor with two lines and the cursor on row 1. -/
theorem adjust_viewport_minimal_snap_witness :
    0 < visibleLines (mkEditor "a\nb".toList 0 1 .normal)
    ∧ 0 < visibleCols (mkEditor "a\nb".toList 0 1 .normal)
    ∧ ((adjust_viewport (mkEditor "a\nb".toList 0 1 .normal)).viewport_y ≤
          (mkEditor "a\nb".toList 0 1 .normal).cursor.y
        ∧ (mkEditor "a\nb".toList 0 1 .normal).cursor.y <
          (adjust_viewport (mkEditor "a\nb".toList 0 1 .normal)).viewport_y +
            visibleLines (mkEditor "a\nb".toList 0 1 .normal)) :=
  ⟨by decide, by decide,
    (adjust_viewport_minimal_snap (mkEditor "a\nb".toList 0 1 .normal)
      (by decide) (by decide)).2.1⟩

theorem replicate_get? {α : Type} (a : α) (n m : Nat) :
    (List.replicate n a).get? m = if m < n then some a else none := by
  induction n generalizing m with
  | zero => simp
  | succ k ih =>
    cases m with
    | zero => simp [List.replicate]
    | succ j =>
      show (List.replicate k a).get? j = _
      rw [ih]
      simp [Nat.succ_lt_succ_iff]

theorem get_cell_new (w h x y : Nat) :
    (RenderBuffer.new w h).get_cell x y =
      if y < h ∧ x < w then some RenderCell.default else none := by
  show ((List.replicate h (List.replicate w RenderCell.default)).get? y).bind
      (fun row => row.get? x) = _
  rw [replicate_get?]
  by_cases hy : y < h
  · rw [if_pos hy]
    show (List.replicate w RenderCell.default).get? x = _
    rw [replicate_get?]
    by_cases hx : x < w
    · rw [if_pos hx, if_pos ⟨hy, hx⟩]
    · rw [if_neg hx, if_neg (by tauto)]
  · rw [if_neg hy, if_neg (by tauto)]
    rfl

theorem get_cell_lt_of_some {rb : RenderBuffer} (h : rb.wf) {x y : Nat} {c : RenderCell}
    (hc : rb.get_cell x y = some c) : y < rb.height ∧ x < rb.width := by
  rw [RenderBuffer.get_cell] at hc
  cases hrow : rb.buffer.get? y with
  | none => rw [hrow] at hc; cases hc
  | some row =>
    rw [hrow] at hc
    replace hc : row.get? x = some c := hc
    have hy : y < rb.buffer.length := by
      by_contra hcon
      rw [List.get?_eq_none.mpr (by omega)] at hrow
      cases hrow
    have hx : x < row.length := by
      by_contra hcon
      rw [List.get?_eq_none.mpr (by omega)] at hc
      cases hc
    have hrowmem : row ∈ rb.buffer := List.get?_mem hrow
    exact ⟨h.1 ▸ hy, h.2 row hrowmem ▸ hx⟩

theorem get_cell_isSome {rb : RenderBuffer} (h : rb.wf) {x y : Nat}
    (hy : y < rb.height) (hx : x < rb.width) : ∃ c, rb.get_cell x y = some c := by
  have hy' : y < rb.buffer.length := by rw [h.1]; exact hy
  have hrow : rb.buffer.get ⟨y, hy'⟩ ∈ rb.buffer := List.get_mem _ _ _
  have hx' : x < (rb.buffer.get ⟨y, hy'⟩).length := by rw [h.2 _ hrow]; exact hx
  refine ⟨(rb.buffer.get ⟨y, hy'⟩).get ⟨x, hx'⟩, ?_⟩
  rw [RenderBuffer.get_cell, List.get?_eq_get hy']
  show (rb.buffer.get ⟨y, hy'⟩).get? x = _
  rw [List.get?_eq_get hx']

theorem diffWrites_mem_iff (cur prev : RenderBuffer) (x y : Nat) (c : RenderCell) :
    (x, y, c) ∈ diffWrites cur prev ↔
      (y < cur.height ∧ x < cur.width ∧ cur.get_cell x y = some c ∧
        cur.get_cell x y ≠ prev.get_cell x y) := by
  rw [diffWrites]
  simp only [List.mem_flatMap, List.mem_filterMap, List.mem_range]
  constructor
  · rintro ⟨y0, hy0, x0, hx0, hite⟩
    split_ifs at hite with hne
    · rw [Option.map_eq_some'] at hite
      obtain ⟨cell, hcell, heq⟩ := hite
      obtain ⟨rfl, rfl, rfl⟩ : x0 = x ∧ y0 = y ∧ cell = c := by
        simpa [Prod.ext_iff] using heq
      exact ⟨hy0, hx0, hcell, hne⟩
  · rintro ⟨hy, hx, hc, hne⟩
    refine ⟨y, hy, x, hx, ?_⟩
    rw [if_pos hne, hc]
    rfl

/-- C9: the diff loop of `render` emits a positioned cell write for
exactly the coordinates where the current and previous grids hold
different cells (identical cells are skipped); diffing a grid against
itself yields no writes, and diffing against a freshly default-filled
grid of the same dimensions yields exactly the cells that differ from
the default cell. -/
theorem diffWrites_spec (cur prev : RenderBuffer) (hc : cur.wf) (hp : prev.wf)
    (hw : prev.width = cur.width) (hh : prev.height = cur.height) :
    (∀ x y c, (x, y, c) ∈ diffWrites cur prev ↔
        (cur.get_cell x y = some c ∧ cur.get_cell x y ≠ prev.get_cell x y))
    ∧ diffWrites cur cur = []
    ∧ (∀ x y c, (x, y, c) ∈ diffWrites cur (RenderBuffer.new cur.width cur.height) ↔
        (cur.get_cell x y = some c ∧ c ≠ RenderCell.default)) := by
  refine ⟨fun x y c => ?_, ?_, fun x y c => ?_⟩
  · rw [diffWrites_mem_iff]
    constructor
    · rintro ⟨_, _, h1, h2⟩
      exact ⟨h1, h2⟩
    · rintro ⟨h1, h2⟩
      obtain ⟨hy, hx⟩ := get_cell_lt_of_some hc h1
      exact ⟨hy, hx, h1, h2⟩
  · rw [List.eq_nil_iff_forall_not_mem]
    rintro ⟨x, y, c⟩ hmem
    rw [diffWrites_mem_iff] at hmem
    exact hmem.2.2.2 rfl
  · rw [diffWrites_mem_iff]
    constructor
    · rintro ⟨hy, hx, h1, h2⟩
      refine ⟨h1, fun hcd => h2 ?_⟩
      rw [h1, get_cell_new, if_pos ⟨hy, hx⟩, hcd]
    · rintro ⟨h1, h2⟩
      obtain ⟨hy, hx⟩ := get_cell_lt_of_some hc h1
      refine ⟨hy, hx, h1, ?_⟩
      rw [h1, get_cell_new, if_pos ⟨hy, hx⟩]
      intro hcon
      exact h2 (Option.some.inj hcon)

/-- Witness for `diffWrites_spec` on two concrete 1×2 grids: the
self-diff of a grid with one non-default cell is empty. -/
theorem diffWrites_spec_witness :
    (RenderBuffer.mk [[RenderCell.mk 'z' .red .reset false false, RenderCell.default]] 2 1).wf
    ∧ (RenderBuffer.new 2 1).wf
    ∧ (RenderBuffer.new 2 1).width =
        (RenderBuffer.mk [[RenderCell.mk 'z' .red .reset false false, RenderCell.default]] 2 1).width
    ∧ (RenderBuffer.new 2 1).height =
        (RenderBuffer.mk [[RenderCell.mk 'z' .red .reset false false, RenderCell.default]] 2 1).height
    ∧ diffWrites (RenderBuffer.mk [[RenderCell.mk 'z' .red .reset false false, RenderCell.default]] 2 1)
        (RenderBuffer.mk [[RenderCell.mk 'z' .red .reset false false, RenderCell.default]] 2 1) = [] :=
  ⟨by decide, by decide, by decide, by decide,
    (diffWrites_spec
      (RenderBuffer.mk [[RenderCell.mk 'z' .red .reset false false, RenderCell.default]] 2 1)
      (RenderBuffer.new 2 1) (by decide) (by decide) (by decide) (by decide)).2.1⟩

/-- C6 (amended): `e <path>` with a nonempty path replaces the buffer
and resets the cursor to (0,0) when the load succeeds, the new buffer
being built from the read contents under the path's file name; when the
load fails the editor state is left entirely unchanged (no fallback
buffer), and in both cases the command signals no termination. -/
theorem execute_command_e_spec (fs : FS) (e : Editor) (command rest : List Char)
    (h1 : trimChars command = 'e' :: ' ' :: rest)
    (h2 : trimChars rest ≠ []) :
    (fs.read (trimChars rest) = none → execute_command fs e command = (e, false))
    ∧ (∀ contents, fs.read (trimChars rest) = some contents →
        execute_command fs e command =
          ({ e with buffer := Buffer.new (fs.fileName (trimChars rest)) contents,
                    cursor := ⟨0, 0⟩ }, false)) := by
  have hA : ¬ ('e' :: ' ' :: rest = "w".toList ∨ 'e' :: ' ' :: rest = "write".toList) := by
    rintro (h | h)
    · rw [show "w".toList = ['w'] from rfl] at h
      simp at h
    · rw [show "write".toList = ['w', 'r', 'i', 't', 'e'] from rfl] at h
      simp at h
  have hB : "w ".toList.isPrefixOf ('e' :: ' ' :: rest) = false := by
    rw [show "w ".toList = ['w', ' '] from rfl]
    simp [List.isPrefixOf]
  have hC : "e ".toList.isPrefixOf ('e' :: ' ' :: rest) = true := by
    rw [show "e ".toList = ['e', ' '] from rfl]
    simp [List.isPrefixOf]
  constructor
  · intro hread
    rw [execute_command, h1, if_neg hA, if_neg (by simp [hB]), if_pos (by simp [hC])]
    show (if trimChars (('e' :: ' ' :: rest).drop 2) ≠ [] then _ else _, false) = (e, false)
    rw [show ('e' :: ' ' :: rest).drop 2 = rest from rfl, if_pos h2]
    show ((match open_file fs (trimChars rest) with
      | some buffer => { e with buffer := buffer, cursor := ⟨0, 0⟩ }
      | none => e), false) = (e, false)
    rw [open_file, hread]
    rfl
  · intro contents hread
    rw [execute_command, h1, if_neg hA, if_neg (by simp [hB]), if_pos (by simp [hC])]
    show (if trimChars (('e' :: ' ' :: rest).drop 2) ≠ [] then _ else _, false) = _
    rw [show ('e' :: ' ' :: rest).drop 2 = rest from rfl, if_pos h2]
    show ((match open_file fs (trimChars rest) with
      | some buffer => { e with buffer := buffer, cursor := ⟨0, 0⟩ }
      | none => e), false) = _
    rw [open_file, hread]
    rfl

/-- Witness for `execute_command_e_spec`: a file system where `"f"`
reads as `"hi"`; the command `e f` replaces the buffer and resets the
cursor. -/
theorem execute_command_e_spec_witness :
    trimChars "e f".toList = 'e' :: ' ' :: "f".toList
    ∧ trimChars "f".toList ≠ []
    ∧ execute_command
        ⟨fun p => if p = "f".toList then some "hi".toList else none, id, fun _ => false⟩
        (mkEditor "ab".toList 1 0 .normal) "e f".toList =
      ({ mkEditor "ab".toList 1 0 .normal with
          buffer := Buffer.new "f".toList "hi".toList, cursor := ⟨0, 0⟩ }, false) := by
  refine ⟨by decide, by decide, ?_⟩
  have h := (execute_command_e_spec
      ⟨fun p => if p = "f".toList then some "hi".toList else none, id, fun _ => false⟩
      (mkEditor "ab".toList 1 0 .normal) "e f".toList "f".toList
      (by decide) (by decide)).2 "hi".toList (by decide)
  simpa using h

theorem clamp_cursor_x_mc (e : Editor) :
    (clamp_cursor_x e).motion_count = e.motion_count := by
  rw [clamp_cursor_x]
  split
  · rfl
  · split_ifs <;> rfl

theorem move_cursor_left_mc (e : Editor) :
    (move_cursor_left e).motion_count = e.motion_count := by
  rw [move_cursor_left]
  split_ifs <;> rfl

theorem move_cursor_right_mc (e : Editor) :
    (move_cursor_right e).motion_count = e.motion_count := by
  rw [move_cursor_right]
  split
  · rfl
  · split_ifs <;> rfl

theorem move_cursor_up_mc (e : Editor) :
    (move_cursor_up e).motion_count = e.motion_count := by
  simp only [move_cursor_up]
  split_ifs <;> simp [clamp_cursor_x_mc]

theorem move_cursor_down_mc (e : Editor) :
    (move_cursor_down e).motion_count = e.motion_count := by
  simp only [move_cursor_down]
  split_ifs <;> simp [clamp_cursor_x_mc]

theorem jump_cursor_word_shape : ∀ (n : Nat) (e : Editor),
    e.buffer.line_count - e.cursor.y ≤ n →
    ∃ cu, jump_cursor_word e = { e with cursor := cu } := by
  intro n
  induction n with
  | zero =>
    intro e he
    rw [jump_cursor_word]
    split
    · exact ⟨e.cursor, rfl⟩
    · split_ifs with h1 h2
      · exact ⟨_, rfl⟩
      · exfalso
        simp only [Buffer.line_count] at he h2
        omega
      · exact ⟨e.cursor, rfl⟩
  | succ n ih =>
    intro e he
    rw [jump_cursor_word]
    split
    · exact ⟨e.cursor, rfl⟩
    · split_ifs with h1 h2
      · exact ⟨_, rfl⟩
      · obtain ⟨cu, hcu⟩ := ih { e with cursor := ⟨0, e.cursor.y + 1⟩ }
          (by simp only [Buffer.line_count] at he ⊢; omega)
        rw [hcu]
        exact ⟨cu, rfl⟩
      · exact ⟨e.cursor, rfl⟩

theorem jump_cursor_word_mc (e : Editor) :
    (jump_cursor_word e).motion_count = e.motion_count := by
  obtain ⟨cu, hcu⟩ := jump_cursor_word_shape (e.buffer.line_count - e.cursor.y) e (le_refl _)
  rw [hcu]

theorem jump_cursor_word_reverse_mc (e : Editor) :
    (jump_cursor_word_reverse e).motion_count = e.motion_count := by
  rw [jump_cursor_word_reverse]
  split
  · rfl
  · split_ifs with h1 h2
    · rfl
    · rw [jump_cursor_word_mc]
    · rfl

theorem motionOf_mc (m : Char) (e : Editor) :
    (motionOf m e).motion_count = e.motion_count := by
  rw [motionOf]
  split_ifs <;>
    first
      | exact move_cursor_left_mc e
      | exact move_cursor_down_mc e
      | exact move_cursor_up_mc e
      | exact move_cursor_right_mc e
      | exact jump_cursor_word_mc e
      | exact jump_cursor_word_reverse_mc e
      | rfl

theorem motionOf_iterate_mc (m : Char) (n : Nat) (e : Editor) :
    ((motionOf m)^[n] e).motion_count = e.motion_count := by
  induction n generalizing e with
  | zero => rfl
  | succ k ih =>
    rw [Function.iterate_succ_apply]
    rw [ih (motionOf m e), motionOf_mc]

theorem pressKeys_nil (fs : FS) (e : Editor) : pressKeys fs e [] = some e := rfl

theorem pressKeys_foldl_none (fs : FS) (ks : List KeyCode) :
    ks.foldl (fun oe k => oe.bind fun e1 => (handle_keypress fs e1 k).map Prod.fst) none =
      none := by
  induction ks with
  | nil => rfl
  | cons k ks ih => exact ih

theorem pressKeys_cons (fs : FS) (e : Editor) (k : KeyCode) (ks : List KeyCode) :
    pressKeys fs e (k :: ks) =
      (handle_keypress fs e k).bind fun p => pressKeys fs p.1 ks := by
  rw [pressKeys, List.foldl_cons]
  show ks.foldl _ ((handle_keypress fs e k).map Prod.fst) = _
  cases h : handle_keypress fs e k with
  | none => exact pressKeys_foldl_none fs ks
  | some p => rfl

theorem pressKeys_append_some (fs : FS) (xs : List KeyCode) :
    ∀ (e e1 : Editor) (ys : List KeyCode), pressKeys fs e xs = some e1 →
      pressKeys fs e (xs ++ ys) = pressKeys fs e1 ys := by
  induction xs with
  | nil =>
    intro e e1 ys h
    have he : e = e1 := by simpa [pressKeys] using h
    subst he
    rfl
  | cons k xs ih =>
    intro e e1 ys h
    rw [List.cons_append, pressKeys_cons]
    rw [pressKeys_cons] at h
    cases hk : handle_keypress fs e k with
    | none =>
      rw [hk] at h
      cases h
    | some p =>
      rw [hk] at h
      exact ih p.1 e1 ys h

theorem handle_keypress_digit (fs : FS) (e : Editor) (c : Char)
    (hm : e.mode = Mode.normal) (hk : e.last_key = none) (hc : c.isDigit = true) :
    handle_keypress fs e (.char c) =
      some ({ e with motion_count := some (satAdd (satMul (e.motion_count.getD 0) 10) (digitVal c)) }, false) := by
  rw [handle_keypress, hm]
  show handle_normal_mode e (.char c) = _
  rw [handle_normal_mode, if_neg (by rw [hk]; simp)]
  rw [normalCore]
  show (if c.isDigit = true then _ else _) = _
  rw [if_pos hc]
  simp [hm]

theorem foldDigits_cons (a : Nat) (c : Char) (tl : List Char) :
    foldDigits a (c :: tl) = foldDigits (satAdd (satMul a 10) (digitVal c)) tl := rfl

theorem pressKeys_digits (fs : FS) : ∀ (ds : List Char), ds ≠ [] →
    ∀ (e : Editor), (∀ c ∈ ds, c.isDigit = true) →
    e.mode = Mode.normal → e.last_key = none →
    pressKeys fs e (ds.map KeyCode.char) =
      some { e with motion_count := some (foldDigits (e.motion_count.getD 0) ds) } := by
  intro ds
  induction ds with
  | nil => intro h; exact absurd rfl h
  | cons c tl ih =>
    intro _ e hds hm hk
    have h1 := handle_keypress_digit fs e c hm hk (hds c (List.mem_cons_self c tl))
    rw [List.map_cons, pressKeys_cons, h1]
    show pressKeys fs
        { e with motion_count := some (satAdd (satMul (e.motion_count.getD 0) 10) (digitVal c)) }
        (tl.map KeyCode.char) = _
    cases tl with
    | nil => rfl
    | cons d tl2 =>
      rw [ih (by simp)
        { e with motion_count := some (satAdd (satMul (e.motion_count.getD 0) 10) (digitVal c)) }
        (fun x hx => hds x (List.mem_cons_of_mem c hx)) hm hk]
      rfl

theorem digitChar_isDigit {d : Nat} (h : d < 10) : (Nat.digitChar d).isDigit = true := by
  interval_cases d <;> decide

theorem digitVal_digitChar {d : Nat} (h : d < 10) : digitVal (Nat.digitChar d) = d := by
  interval_cases d <;> decide

theorem decimalDigits_digits : ∀ (n : Nat), ∀ c ∈ decimalDigits n, c.isDigit = true := by
  intro n
  induction n using Nat.strong_induction_on with
  | _ n ih =>
    cases n with
    | zero => intro c hc; simp [decimalDigits] at hc
    | succ m =>
      intro c hc
      rw [decimalDigits] at hc
      rcases List.mem_append.mp hc with h | h
      · exact ih ((m + 1) / 10) (Nat.div_lt_self (Nat.succ_pos m) (by decide)) c h
      · have hc2 : c = Nat.digitChar ((m + 1) % 10) := by simpa using h
        rw [hc2]
        exact digitChar_isDigit (Nat.mod_lt _ (by decide))

theorem decimalDigits_ne_nil {n : Nat} (h : 1 ≤ n) : decimalDigits n ≠ [] := by
  obtain ⟨m, rfl⟩ : ∃ m, n = m + 1 := ⟨n - 1, by omega⟩
  rw [decimalDigits]
  simp

theorem foldDigits_append (a : Nat) (xs ys : List Char) :
    foldDigits a (xs ++ ys) = foldDigits (foldDigits a xs) ys := by
  rw [foldDigits, foldDigits, foldDigits, List.foldl_append]

theorem foldDigits_decimalDigits : ∀ (n : Nat), n < USIZE →
    foldDigits 0 (decimalDigits n) = n := by
  intro n
  induction n using Nat.strong_induction_on with
  | _ n ih =>
    intro hn
    cases n with
    | zero => rw [decimalDigits]; rfl
    | succ m =>
      rw [decimalDigits, foldDigits_append]
      rw [ih ((m + 1) / 10) (Nat.div_lt_self (Nat.succ_pos m) (by decide))
        (lt_trans (Nat.div_lt_self (Nat.succ_pos m) (by decide)) hn)]
      show satAdd (satMul ((m + 1) / 10) 10) (digitVal (Nat.digitChar ((m + 1) % 10))) = m + 1
      rw [digitVal_digitChar (Nat.mod_lt _ (by decide))]
      have h1 : (m + 1) / 10 * 10 ≤ m + 1 := Nat.div_mul_le_self _ _
      have h2 := Nat.div_add_mod (m + 1) 10
      have hU : USIZE = 18446744073709551616 := by norm_num [USIZE]
      rw [satMul, satAdd, hU]
      rw [hU] at hn
      omega

theorem handle_keypress_motion (fs : FS) (e : Editor) (m : Char)
    (hm : e.mode = Mode.normal) (hk : e.last_key = none)
    (hmem : m ∈ ['h', 'j', 'k', 'l', 'w', 'b']) :
    handle_keypress fs e (.char m) =
      some ((motionOf m)^[e.motion_count.getD 1] { e with motion_count := none }, false) := by
  rw [handle_keypress, hm]
  show handle_normal_mode e (.char m) = _
  rw [handle_normal_mode, if_neg (by rw [hk]; simp)]
  have hmem' : m = 'h' ∨ m = 'j' ∨ m = 'k' ∨ m = 'l' ∨ m = 'w' ∨ m = 'b' := by
    simpa using hmem
  rcases hmem' with rfl | rfl | rfl | rfl | rfl | rfl
  · rw [show motionOf 'h' = move_cursor_left from by rw [motionOf, if_pos rfl]]
    rw [normalCore]
    show (if ('h'.isDigit = true) then _ else _) = _
    rw [if_neg (by decide), if_neg (by decide), if_neg (by decide), if_pos rfl, hm]
  · rw [show motionOf 'j' = move_cursor_down from by
      rw [motionOf, if_neg (by decide), if_pos rfl]]
    rw [normalCore]
    show (if ('j'.isDigit = true) then _ else _) = _
    rw [if_neg (by decide), if_pos rfl, hm]
  · rw [show motionOf 'k' = move_cursor_up from by
      rw [motionOf, if_neg (by decide), if_neg (by decide), if_pos rfl]]
    rw [normalCore]
    show (if ('k'.isDigit = true) then _ else _) = _
    rw [if_neg (by decide), if_neg (by decide), if_pos rfl, hm]
  · rw [show motionOf 'l' = move_cursor_right from by
      rw [motionOf, if_neg (by decide), if_neg (by decide), if_neg (by decide), if_pos rfl]]
    rw [normalCore]
    show (if ('l'.isDigit = true) then _ else _) = _
    rw [if_neg (by decide), if_neg (by decide), if_neg (by decide), if_neg (by decide),
      if_pos rfl, hm]
  · rw [show motionOf 'w' = jump_cursor_word from by
      rw [motionOf, if_neg (by decide), if_neg (by decide), if_neg (by decide),
        if_neg (by decide), if_pos rfl]]
    rw [normalCore]
    show (if ('w'.isDigit = true) then _ else _) = _
    rw [if_neg (by decide), if_neg (by decide), if_neg (by decide), if_neg (by decide),
      if_neg (by decide), if_pos rfl, hm]
  · rw [show motionOf 'b' = jump_cursor_word_reverse from by
      rw [motionOf, if_neg (by decide), if_neg (by decide), if_neg (by decide),
        if_neg (by decide), if_neg (by decide), if_pos rfl]]
    rw [normalCore]
    show (if ('b'.isDigit = true) then _ else _) = _
    rw [if_neg (by decide), if_neg (by decide), if_neg (by decide), if_neg (by decide),
      if_neg (by decide), if_neg (by decide), if_pos rfl, hm]

/-- C7: in Normal mode with no pending prefix or count, typing the
decimal digits of a repeat count `N ≥ 1` (below the `usize` width,
where the accumulator cannot saturate) followed by one of the motion
keys `h/j/k/l/w/b` leaves the editor exactly where `N` successive
applications of that key's single-step primitive leave it, and the
pending count is consumed (reset to `none`). -/
theorem count_then_motion (fs : FS) (e : Editor) (N : Nat) (m : Char)
    (hm : e.mode = Mode.normal) (hk : e.last_key = none) (hc : e.motion_count = none)
    (h1 : 1 ≤ N) (h2 : N < USIZE) (hmem : m ∈ ['h', 'j', 'k', 'l', 'w', 'b']) :
    pressKeys fs e ((decimalDigits N).map KeyCode.char ++ [KeyCode.char m]) =
      some ((motionOf m)^[N] e)
    ∧ ((motionOf m)^[N] e).motion_count = none := by
  have hdig := pressKeys_digits fs (decimalDigits N) (decimalDigits_ne_nil h1) e
    (decimalDigits_digits N) hm hk
  have hfold : foldDigits (e.motion_count.getD 0) (decimalDigits N) = N := by
    rw [hc]
    show foldDigits 0 (decimalDigits N) = N
    exact foldDigits_decimalDigits N h2
  rw [hfold] at hdig
  have happ := pressKeys_append_some fs ((decimalDigits N).map KeyCode.char)
    e { e with motion_count := some N } [KeyCode.char m] hdig
  have hstep := handle_keypress_motion fs { e with motion_count := some N } m hm hk hmem
  constructor
  · rw [happ, pressKeys_cons, hstep]
    show some ((motionOf m)^[N] { e with motion_count := none }) = _
    have heta : ({ e with motion_count := none } : Editor) = e := by
      cases e with
      | mk b cur mo cp vx vy lk mc w h =>
        simp only at hc
        rw [hc]
    rw [heta]
  · rw [motionOf_iterate_mc, hc]

/-- Witness for `count_then_motion`: repeat count 2 and motion `j` on a
four-line buffer. -/
theorem count_then_motion_witness :
    (mkEditor "a\nb\nc\nd".toList 0 0 .normal).mode = Mode.normal
    ∧ (mkEditor "a\nb\nc\nd".toList 0 0 .normal).last_key = none
    ∧ (mkEditor "a\nb\nc\nd".toList 0 0 .normal).motion_count = none
    ∧ 1 ≤ 2 ∧ 2 < USIZE ∧ 'j' ∈ ['h', 'j', 'k', 'l', 'w', 'b']
    ∧ pressKeys fsNone (mkEditor "a\nb\nc\nd".toList 0 0 .normal)
        ((decimalDigits 2).map KeyCode.char ++ [KeyCode.char 'j']) =
      some ((motionOf 'j')^[2] (mkEditor "a\nb\nc\nd".toList 0 0 .normal)) :=
  ⟨rfl, rfl, rfl, by decide, by norm_num [USIZE], by decide,
    (count_then_motion fsNone (mkEditor "a\nb\nc\nd".toList 0 0 .normal) 2 'j'
      rfl rfl rfl (by decide) (by norm_num [USIZE]) (by decide)).1⟩
